import Mathlib

/-!
Verification of the core of the espg LALR(1) parser-table generator
(src/espg/gen.py) against its natural-language specification.

The Python source is shallowly embedded: each relevant Python function
becomes a Lean definition with the same name (camel-cased), translated
line by line from gen.py.  The ordered-set container (ordered.py), the
grammar data model (grammar.py) and the ACCEPT sentinel
(pgen_runtime.py) are not part of the provided source; the few
definitions taken from them are modelled from the specification and are
marked as such in their doc comments.

Sets are represented as insertion-ordered duplicate-free lists, which is
the data model of ordered.py as the specification describes it
(section 4.B): iteration order is insertion order, while equality
ignores order.  Where the Python code compares sets for equality we use
the order-ignoring comparison oeqb.
-/

namespace Espg

/-- A nonterminal name: either a plain name, or the InitNt(goal) wrapper
that names the implicit init production of a goal (grammar.py is not in
the provided source; modelled from the spec, section 3). -/
inductive Nt where
  | base (name : String)
  | init (goal : String)
deriving DecidableEq, Repr

/-- True iff the nonterminal is an InitNt wrapper. -/
def Nt.isInit : Nt → Bool
  | .base _ => false
  | .init _ => true

/-- Modelled from the spec: a LookaheadRule(set-of-terminals,
positive-flag) is a zero-width guard on the immediately next token
(grammar.py is not in the provided source).  The terminal set is an
insertion-ordered list. -/
structure LookaheadRule where
  set : List String
  positive : Bool
deriving DecidableEq, Repr

/-- A grammar symbol.  The spec (section 3) describes symbols as tagged
values; Var, Apply and ConditionalRhs only occur before stage D, which
no claim mentions, so they are omitted here. -/
inductive Sym where
  | term (t : String)
  | nt (n : Nt)
  | optional (inner : Sym)
  | lookahead (rule : LookaheadRule)
deriving DecidableEq, Repr

/-- grammar.is_terminal: terminals are tagged values (spec section 3). -/
def Sym.isTerminalSym : Sym → Bool
  | .term _ => true
  | _ => false

/-- grammar.is_nt: nonterminal references are tagged values. -/
def Sym.isNtSym : Sym → Bool
  | .nt _ => true
  | _ => false

/-- grammar.is_optional. -/
def Sym.isOptionalSym : Sym → Bool
  | .optional _ => true
  | _ => false

/-- grammar.is_lookahead_rule. -/
def Sym.isLookaheadSym : Sym → Bool
  | .lookahead _ => true
  | _ => false

/-- The .inner accessor of an Optional element (identity on other
symbols; the source only ever reads .inner from a symbol it has just
checked to be Optional). -/
def Sym.innerSym : Sym → Sym
  | .optional s => s
  | s => s

/-- A reduction expression (spec section 3): a nonnegative integer index
into the production body, None, Some(expr), CallMethod(name, args), or
the accept sentinel. -/
inductive RExpr where
  | int (i : Nat)
  | noneE
  | someE (inner : RExpr)
  | call (method : String) (args : List RExpr)
  | accept

/-- A production (nt, body, action), from grammar.py; modelled from the
spec, section 3. -/
structure Production where
  nt : Nt
  body : List Sym
  action : RExpr

/-- The grammar: an insertion-ordered mapping from nonterminal name to
production list, plus the ordered list of goal names.  For each goal G
the mapping is expected to carry the implicit init production
InitNt(G) -> G (spec section 3).  grammar.py is not in the provided
source; modelled from the spec. -/
structure Grammar where
  nonterminals : List (Nt × List Production)
  goals : List String

/-- grammar.nonterminals[nt] lookup (first matching key). -/
def lookupNt (g : Grammar) (n : Nt) : List Production :=
  match g.nonterminals.find? (fun kv => kv.1 = n) with
  | Option.some kv => kv.2
  | Option.none => []

/-- grammar.init_nts: one InitNt per goal (spec sections 3 and 4.J). -/
def Grammar.initNts (g : Grammar) : List Nt :=
  g.goals.map Nt.init

/-- grammar.with_nonterminals: shallowly modified copy. -/
def Grammar.withNonterminals (g : Grammar) (m : List (Nt × List Production)) : Grammar :=
  { g with nonterminals := m }

/-! ### Ordered sets (ordered.py is not in the provided source).

Modelled from the spec, section 4.B: a set whose iteration order is
insertion order; membership, union, difference and intersection; two
sets compare equal iff they contain the same elements, order ignored.
We represent such a set as the duplicate-free list of its elements in
insertion order. -/

/-- Modelled from the spec: OrderedSet.add - append the element unless
already present. -/
def oinsert [DecidableEq α] (l : List α) (x : α) : List α :=
  if x ∈ l then l else l ++ [x]

/-- Modelled from the spec: set union, left operand's order first, new
elements of the right operand appended in their order. -/
def ounion [DecidableEq α] (l₁ l₂ : List α) : List α :=
  l₂.foldl oinsert l₁

/-- Modelled from the spec: set difference. -/
def osdiff [DecidableEq α] (l₁ l₂ : List α) : List α :=
  l₁.filter (fun x => x ∉ l₂)

/-- Modelled from the spec: set intersection. -/
def ointer [DecidableEq α] (l₁ l₂ : List α) : List α :=
  l₁.filter (fun x => x ∈ l₂)

/-- Modelled from the spec: OrderedSet.remove. -/
def oremove [DecidableEq α] (l : List α) (x : α) : List α :=
  l.filter (fun y => y ≠ x)

/-- Modelled from the spec: order-ignoring equality of two sets. -/
def oeqb [DecidableEq α] (l₁ l₂ : List α) : Bool :=
  l₁.all (fun x => x ∈ l₂) && l₂.all (fun x => x ∈ l₁)

/-! ### Terminals, EMPTY and END

gen.py puts terminals, the EMPTY sentinel "(empty)" and the END sentinel
None into the same sets; we give that universe a tagged type. -/

/-- An element of a start set or follow set: a terminal, the EMPTY
sentinel (gen.py line 224) or the END sentinel (gen.py line 225, None in
Python). -/
inductive Tok where
  | t (s : String)
  | empty
  | endm
deriving DecidableEq, Repr

/-- The image of a lookahead rule's terminal set in the Tok universe. -/
def lookaheadToks (rule : LookaheadRule) : List Tok :=
  rule.set.map Tok.t

/-! ### fix, empty_nt_set (gen.py lines 46-66) -/

/-- fix(f, start) from gen.py, with explicit fuel standing in for the
unbounded while loop: repeatedly apply f until the value stabilizes
under the given equality test. -/
def fixFuel (eqTest : α → α → Bool) (f : α → α) : Nat → α → α
  | 0, x => x
  | fuel + 1, x =>
    let y := f x
    if eqTest y x then x else fixFuel eqTest f fuel y

/-- The body of the production_is_empty predicate inside empty_nt_set:
every element is a lookahead rule, an optional, or a nullable
nonterminal. -/
def productionIsEmpty (empties : List Nt) (p : Production) : Bool :=
  p.body.all (fun e =>
    e.isLookaheadSym || e.isOptionalSym ||
      (match e with
       | .nt n => n ∈ empties
       | _ => false))

/-- One step of empty_nt_set's fixed point: the nonterminals with some
production all of whose elements can be erased. -/
def emptyNtStep (g : Grammar) (empties : List Nt) : List Nt :=
  (g.nonterminals.filter (fun kv => kv.2.any (productionIsEmpty empties))).map (fun kv => kv.1)

/-- empty_nt_set(grammar): the nullable nonterminals, by fixed-point
iteration (gen.py lines 54-66). -/
def emptyNtSet (g : Grammar) (fuel : Nat) : List Nt :=
  fixFuel oeqb (emptyNtStep g) fuel []

/-! ### expand_optional_symbols_in_rhs (gen.py lines 403-428) -/

/-- Index of the first Optional element at position startIndex or later;
the first component of the scan in expand_optional_symbols_in_rhs. -/
def findFirstOptionalAux : List Sym → Nat → Option Nat
  | [], _ => Option.none
  | e :: rest, idx =>
    if e.isOptionalSym then Option.some idx else findFirstOptionalAux rest (idx + 1)

/-- The for/else scan at the top of expand_optional_symbols_in_rhs. -/
def findFirstOptional (rhs : List Sym) (startIndex : Nat) : Option Nat :=
  findFirstOptionalAux (rhs.drop startIndex) startIndex

/-- expand_optional_symbols_in_rhs(rhs, start_index): every way of
replacing each Optional element by its inner symbol or by nothing,
paired with the ascending list of indices of the dropped Optionals.
The Python generator recurses on the position after the first Optional;
fuel bounds that recursion (any fuel above the rhs length is enough). -/
def expandOptionalSymbolsInRhs (fuel : Nat) (rhs : List Sym) (startIndex : Nat) :
    List (List Sym × List Nat) :=
  match fuel with
  | 0 => []
  | fuel + 1 =>
    match findFirstOptional rhs startIndex with
    | Option.none => [(rhs.drop startIndex, [])]
    | Option.some i =>
      (expandOptionalSymbolsInRhs fuel rhs (i + 1)).flatMap (fun er =>
        [((rhs.take i).drop startIndex ++ er.1, i :: er.2),
         ((rhs.take i).drop startIndex ++ [(rhs.getD i (Sym.term "")).innerSym] ++ er.1, er.2)])

/-- expand_optional_symbols_in_rhs with the default start index 0, as
all the callers in gen.py use it. -/
def expandOptionalsRhs (rhs : List Sym) : List (List Sym × List Nat) :=
  expandOptionalSymbolsInRhs (rhs.length + 1) rhs 0

/-! ### check_cycle_free, check_lookahead_rules (gen.py lines 69-139) -/

/-- The inner for/else loop of check_cycle_free over one expanded rhs:
the nonterminals this rhs can reduce to (None models the break paths,
where the rhs can never be a single nonterminal). -/
def directNtsOfRhs (empties : List Nt) : List Sym → Bool → List Nt → Option (List Nt)
  | [], _, result => Option.some result
  | e :: rest, allEmpty, result =>
    match e with
    | .term _ => Option.none
    | .nt n =>
      if n ∈ empties then
        directNtsOfRhs empties rest allEmpty (if allEmpty then result ++ [n] else result)
      else
        if allEmpty then directNtsOfRhs empties rest false [n]
        else Option.none
    | .optional inner =>
      match inner with
      | .nt n => directNtsOfRhs empties rest allEmpty (result ++ [n])
      | _ => directNtsOfRhs empties rest allEmpty result
    | .lookahead _ => directNtsOfRhs empties rest allEmpty result

/-- direct_produces[orig] in check_cycle_free: union over the
productions of orig and over their optional expansions. -/
def directProduces (empties : List Nt) (plist : List Production) : List Nt :=
  plist.foldl (fun acc p =>
    (expandOptionalsRhs p.body).foldl (fun acc2 er =>
      match directNtsOfRhs empties er.1 true [] with
      | Option.some result => ounion acc2 result
      | Option.none => acc2) acc) []

/-- Lookup in the produces map (a referenced nonterminal always has an
entry for grammars satisfying the spec's well-formedness invariant). -/
def lookupProduces (produces : List (Nt × List Nt)) (n : Nt) : List Nt :=
  match produces.find? (fun kv => kv.1 = n) with
  | Option.some kv => kv.2
  | Option.none => []

/-- The step function given to fix inside check_cycle_free. -/
def producesStep (produces : List (Nt × List Nt)) : List (Nt × List Nt) :=
  produces.map (fun kv =>
    (kv.1, ounion kv.2 (kv.2.foldl (fun acc a => ounion acc (lookupProduces produces a)) [])))

/-- Content equality of two produces maps, used as the stabilization
test of the fixed-point iteration. -/
def producesEq (p q : List (Nt × List Nt)) : Bool :=
  decide (p.length = q.length) &&
    (p.zip q).all (fun ab => decide (ab.1.1 = ab.2.1) && oeqb ab.1.2 ab.2.2)

/-- check_cycle_free(grammar) (gen.py lines 69-120): true iff no
nonterminal can produce itself (the source raises ValueError when this
returns false). -/
def checkCycleFree (g : Grammar) (fuel : Nat) : Bool :=
  let empties := emptyNtSet g fuel
  let direct := g.nonterminals.map (fun kv => (kv.1, directProduces empties kv.2))
  let produces := fixFuel producesEq producesStep fuel direct
  g.nonterminals.all (fun kv => kv.1 ∉ lookupProduces produces kv.1)

/-- check_lookahead_rules(grammar) (gen.py lines 123-139): true iff
cycle-free and no optional expansion of any production body ends in a
LookaheadRule (the source raises ValueError when this returns false).
The source comment at lines 134-136 acknowledges that the trailing
check is insufficient: a LookaheadRule followed only by nullable
elements is not detected. -/
def checkLookaheadRules (g : Grammar) (fuel : Nat) : Bool :=
  checkCycleFree g fuel &&
    g.nonterminals.all (fun kv => kv.2.all (fun p =>
      (expandOptionalsRhs p.body).all (fun er =>
        !(decide (er.1 ≠ []) && (er.1.getLastD (Sym.term "")).isLookaheadSym))))

/-! ### seq_start and start_sets (gen.py lines 224-284) -/

/-- Lookup of start[nt]. -/
def lookupStart (start : List (Nt × List Tok)) (n : Nt) : List Tok :=
  match start.find? (fun kv => kv.1 = n) with
  | Option.some kv => kv.2
  | Option.none => []

/-- The loop of seq_start (gen.py lines 265-284) with its accumulator s
made explicit.  Note that on reaching a LookaheadRule the source
computes the start set of the remaining suffix, restricts it by the
rule, and returns just that restricted set; the accumulator built from
the preceding (nullable) elements is discarded at that point.  An
Optional element cannot occur (the source asserts); its branch returns
the empty set. -/
def seqStartLoop (_g : Grammar) (start : List (Nt × List Tok)) : List Tok → List Sym → List Tok
  | s, [] => s
  | s, e :: rest =>
    if Tok.empty ∈ s then
      let s' := oremove s Tok.empty
      match e with
      | .term t => seqStartLoop _g start (oinsert s' (Tok.t t)) rest
      | .nt n => seqStartLoop _g start (ounion s' (lookupStart start n)) rest
      | .optional _ => []
      | .lookahead rule =>
        let future := seqStartLoop _g start [Tok.empty] rest
        if rule.positive then ointer future (lookaheadToks rule)
        else osdiff future (lookaheadToks rule)
    else s

/-- seq_start(grammar, start, seq). -/
def seqStart (g : Grammar) (start : List (Nt × List Tok)) (seq : List Sym) : List Tok :=
  seqStartLoop g start [Tok.empty] seq

/-- The per-nonterminal set built inside the start_sets loop:
OrderedFrozenSet(t for p in plist for t in seq_start(grammar, start, p.body)). -/
def ntStartSet (g : Grammar) (start : List (Nt × List Tok)) (plist : List Production) : List Tok :=
  plist.foldl (fun acc p => ounion acc (seqStart g start p.body)) []

/-- In-place update of one entry of the start map. -/
def updateStart (start : List (Nt × List Tok)) (n : Nt) (v : List Tok) : List (Nt × List Tok) :=
  start.map (fun kv => if kv.1 = n then (kv.1, v) else kv)

/-- One pass of the start_sets while loop over all nonterminals,
updating the map in place and tracking the done flag (gen.py lines
253-261).  Each nonterminal's set is recomputed from the partially
updated map, exactly as in the source. -/
def startPass (g : Grammar) : List (Nt × List Production) → List (Nt × List Tok) → Bool →
    List (Nt × List Tok) × Bool
  | [], start, done => (start, done)
  | (n, plist) :: rest, start, done =>
    let ntStart := ntStartSet g start plist
    if oeqb ntStart (lookupStart start n) then startPass g rest start done
    else startPass g rest (updateStart start n ntStart) false

/-- The while-not-done loop of start_sets, with fuel standing in for
the unbounded loop. -/
def startSetsLoop (g : Grammar) : Nat → List (Nt × List Tok) → List (Nt × List Tok)
  | 0, start => start
  | fuel + 1, start =>
    let pass := startPass g g.nonterminals start true
    if pass.2 then pass.1 else startSetsLoop g fuel pass.1

/-- start_sets(grammar) (gen.py lines 228-262): every nonterminal
starts at the empty set, then iterate to a fixed point. -/
def startSets (g : Grammar) (fuel : Nat) : List (Nt × List Tok) :=
  startSetsLoop g fuel (g.nonterminals.map (fun kv => (kv.1, [])))

/-! ### make_start_set_cache (gen.py lines 287-318) -/

/-- suffix_start_list(rhs) inside make_start_set_cache: the right-to-
left construction of the per-suffix start sets.  The source appends to
a list and reverses it at the end; consing to the front of the
accumulator builds the same final list.  The source also asserts, at
each step, that the set just built equals seq_start of the
corresponding suffix; the computation is embedded here without that
assertion so that the asserted property can be examined.  An Optional
element cannot occur (the source asserts); its branch yields the empty
set. -/
def suffixStartList (_g : Grammar) (start : List (Nt × List Tok)) (rhs : List Sym) :
    List (List Tok) :=
  rhs.reverse.foldl (fun sets e =>
    let prior := sets.headD []
    let s :=
      match e with
      | .term t => [Tok.t t]
      | .nt n =>
        let s0 := lookupStart start n
        if Tok.empty ∈ s0 then ounion (oremove s0 Tok.empty) prior else s0
      | .optional _ => []
      | .lookahead rule =>
        if rule.positive then ointer prior (lookaheadToks rule)
        else osdiff prior (lookaheadToks rule)
    s :: sets) [[Tok.empty]]

/-- A flat production (gen.py line 400): Prod(nt, index, rhs, removals,
action). -/
structure Prod where
  nt : Nt
  index : Nat
  rhs : List Sym
  removals : List Nat
  action : RExpr

/-- A throwaway Prod used as the default of list lookups whose indices
are in range in every use the source makes of them. -/
def dummyProd : Prod :=
  Prod.mk (Nt.base "") 0 [] [] RExpr.accept

/-- make_start_set_cache(grammar, prods, start) (gen.py lines 287-318):
cache[n] is the suffix start list of prods[n].rhs. -/
def makeStartSetCache (g : Grammar) (prods : List Prod) (start : List (Nt × List Tok)) :
    List (List (List Tok)) :=
  prods.map (fun p => suffixStartList g start p.rhs)

/-! ### adjust_reduce_expr and expand_all_optional_elements
(gen.py lines 431-479) -/

/-- sum(1 for r in removals if r < expr) in adjust_reduce_expr. -/
def countRemovalsBelow (removals : List Nat) (i : Nat) : Nat :=
  (removals.filter (fun r => r < i)).length

mutual

/-- adjust_reduce_expr(expr) (gen.py lines 449-471), closed over the
enclosing production body and removals list.  The source indexes
p.body[expr] only after ruling out removed slots; the getD default is
never reached for indices inside the body.  The list comprehension of
the CallMethod case is the mutually recursive adjustReduceExprList. -/
def adjustReduceExpr (body : List Sym) (removals : List Nat) : RExpr → RExpr
  | .int i =>
    if i ∈ removals then .noneE
    else
      let wasOptional := (body.getD i (Sym.term "")).isOptionalSym
      let j := i - countRemovalsBelow removals i
      if wasOptional then .someE (.int j) else .int j
  | .noneE => .noneE
  | .someE inner => .someE (adjustReduceExpr body removals inner)
  | .call m args => .call m (adjustReduceExprList body removals args)
  | .accept => .accept

/-- adjust_reduce_expr mapped over the argument list of a
CallMethod. -/
def adjustReduceExprList (body : List Sym) (removals : List Nat) : List RExpr → List RExpr
  | [] => []
  | e :: es => adjustReduceExpr body removals e :: adjustReduceExprList body removals es

end

/-- expand_all_optional_elements(grammar) (gen.py lines 431-479):
returns the expanded grammar, the global flat production list, and the
per-nonterminal list of (global index, expanded rhs) pairs.  The
source builds all three with one pair of nested loops; the three
comprehensions below enumerate the same elements in the same order
(productions of one nonterminal are contiguous in prods). -/
def expandAllOptionalElements (g : Grammar) :
    Grammar × List Prod × List (Nt × List (Nat × List Sym)) :=
  let prods := g.nonterminals.flatMap (fun kv =>
    kv.2.enum.flatMap (fun ip =>
      (expandOptionalsRhs ip.2.body).map (fun er =>
        Prod.mk kv.1 ip.1 er.1 er.2 (adjustReduceExpr ip.2.body er.2 ip.2.action))))
  let expandedGrammar := g.nonterminals.map (fun kv =>
    (kv.1, kv.2.flatMap (fun p =>
      (expandOptionalsRhs p.body).map (fun er =>
        Production.mk p.nt er.1 (adjustReduceExpr p.body er.2 p.action)))))
  let byNt := g.nonterminals.map (fun kv =>
    (kv.1, prods.enum.filterMap (fun jp =>
      if jp.2.nt = kv.1 then Option.some (jp.1, jp.2.rhs) else Option.none)))
  (g.withNonterminals expandedGrammar, prods, byNt)

/-! ### make_epsilon_free_step_1 and _2 (gen.py lines 482-512) -/

/-- make_epsilon_free_step_1(grammar) (gen.py lines 482-499): wrap
every use of a nullable nonterminal in Optional. -/
def makeEpsilonFreeStep1 (g : Grammar) (fuel : Nat) : Grammar :=
  let empties := emptyNtSet g fuel
  g.withNonterminals (g.nonterminals.map (fun kv =>
    (kv.1, kv.2.map (fun p =>
      { p with body := p.body.map (fun e =>
          match e with
          | .nt n => if n ∈ empties then .optional (.nt n) else e
          | _ => e) }))))

/-- The goal nonterminals as grammar keys. -/
def goalNts (g : Grammar) : List Nt :=
  g.goals.map Nt.base

/-- make_epsilon_free_step_2(grammar) (gen.py lines 502-512): drop
every production with an empty body except on goal nonterminals. -/
def makeEpsilonFreeStep2 (g : Grammar) : Grammar :=
  g.withNonterminals (g.nonterminals.map (fun kv =>
    (kv.1, kv.2.filter (fun p =>
      decide (0 < p.body.length) || decide (kv.1 ∈ goalNts g)))))

/-! ### LR items and states (gen.py lines 681-1014) -/

/-- An LR item (gen.py line 681): LRItem(prod_index, offset, lookahead,
followed_by).  followed_by is an ordered frozen set of terminals in
which the END sentinel may occur. -/
structure LRItem where
  prodIndex : Nat
  offset : Nat
  lookahead : Option LookaheadRule
  followedBy : List Tok
deriving DecidableEq, Repr

/-- Modelled from the spec: lookahead_intersect from grammar.py (not in
the provided source) conjoins a pending optional LookaheadRule with a
newly passed one; the spec (section 4.I) describes item construction as
intersecting each passed rule into the item's lookahead field. -/
def lookaheadIntersect : Option LookaheadRule → LookaheadRule → Option LookaheadRule
  | Option.none, r => Option.some r
  | Option.some r1, r2 =>
    Option.some
      (match r1.positive, r2.positive with
       | true, true => LookaheadRule.mk (ointer r1.set r2.set) true
       | true, false => LookaheadRule.mk (osdiff r1.set r2.set) true
       | false, true => LookaheadRule.mk (osdiff r2.set r1.set) true
       | false, false => LookaheadRule.mk (ounion r1.set r2.set) false)

/-- Modelled from the spec: lookahead_contains from grammar.py (not in
the provided source) - whether a terminal is admitted by an optional
lookahead restriction (section 3: a zero-width guard on the immediately
next token; no restriction admits everything). -/
def lookaheadContains : Option LookaheadRule → String → Bool
  | Option.none, _ => true
  | Option.some r, t => if r.positive then decide (t ∈ r.set) else decide (t ∉ r.set)

/-- The immutable bundle PgenContext (gen.py lines 702-709).  follow is
the follow-set map as a total function, matching the defaultdict the
source passes around. -/
structure PgenContext where
  grammar : Grammar
  prods : List Prod
  prodsWithIndexesByNt : List (Nt × List (Nat × List Sym))
  startSetCache : List (List (List Tok))
  follow : Nt → List Tok

/-- The while loop of make_lr_item (gen.py lines 734-737): advance the
offset past LookaheadRule elements, intersecting each passed rule into
the lookahead field.  The argument list is the rhs suffix starting at
the offset. -/
def advancePastLookahead : List Sym → Nat → Option LookaheadRule → Nat × Option LookaheadRule
  | .lookahead r :: rest, offset, la =>
    advancePastLookahead rest (offset + 1) (lookaheadIntersect la r)
  | _, offset, la => (offset, la)

/-- PgenContext.make_lr_item (gen.py lines 711-765).  The
canonicalization block in the source is disabled (if False) and is
omitted here, so an item is always produced, matching the enabled code
path. -/
def makeLRItem (ctx : PgenContext) (prodIndex offset : Nat) (la : Option LookaheadRule)
    (followedBy : List Tok) : LRItem :=
  let rhs := (ctx.prods.getD prodIndex dummyProd).rhs
  let ol := advancePastLookahead (rhs.drop offset) offset la
  LRItem.mk prodIndex ol.1 ol.2 followedBy

/-- specific_follow(start_set_cache, prod_id, offset, followed_by)
(gen.py lines 1126-1138). -/
def specificFollow (cache : List (List (List Tok))) (prodId offset : Nat)
    (followedBy : List Tok) : List Tok :=
  let result := (cache.getD prodId []).getD (offset + 1) []
  if Tok.empty ∈ result then ounion (oremove result Tok.empty) followedBy else result

/-- The merge-key triple of an item: (prod_index, offset, lookahead)
(gen.py lines 916-917 and 948-949). -/
def itemKey (it : LRItem) : Nat × Nat × Option LookaheadRule :=
  (it.prodIndex, it.offset, it.lookahead)

/-- One step of the consolidation loop in State.__init__ (gen.py lines
907-909): merge a followed-by set into the entry of its triple,
appending a fresh entry when the triple is new. -/
def addFollowedBy (acc : List ((Nat × Nat × Option LookaheadRule) × List Tok))
    (k : Nat × Nat × Option LookaheadRule) (fb : List Tok) :
    List ((Nat × Nat × Option LookaheadRule) × List Tok) :=
  if acc.any (fun kv => kv.1 = k) then
    acc.map (fun kv => if kv.1 = k then (kv.1, ounion kv.2 fb) else kv)
  else acc ++ [(k, fb)]

/-- The consolidation performed by State.__init__ (gen.py lines
905-910): group the items by their (prod_index, offset, lookahead)
triple, unioning the followed-by sets of items that share a triple. -/
def consolidate (items : List LRItem) : List LRItem :=
  (items.foldl (fun acc it => addFollowedBy acc (itemKey it) it.followedBy) []).map
    (fun kv => LRItem.mk kv.1.1 kv.1.2.1 kv.1.2.2 kv.2)

/-- new_followed_by[key] in State.update (gen.py lines 951-954); the
default is never reached when the two states have equal merge keys. -/
def lookupFollowedBy (items : List LRItem) (k : Nat × Nat × Option LookaheadRule) : List Tok :=
  match items.find? (fun it => itemKey it = k) with
  | Option.some it => it.followedBy
  | Option.none => []

/-- State.update(new_state) (gen.py lines 934-967) on the item sets of
the two states: returns whether anything changed together with the
(possibly merged) item set of self. -/
def stateUpdate (self new : List LRItem) : Bool × List LRItem :=
  if self.all (fun it => osdiff (lookupFollowedBy new (itemKey it)) it.followedBy = []) then
    (false, self)
  else
    (true, self.map (fun it =>
      { it with followedBy := ounion it.followedBy (lookupFollowedBy new (itemKey it)) }))

/-- prods_with_indexes_by_nt[nt] lookup. -/
def lookupByNt (byNt : List (Nt × List (Nat × List Sym))) (n : Nt) : List (Nat × List Sym) :=
  match byNt.find? (fun kv => kv.1 = n) with
  | Option.some kv => kv.2
  | Option.none => []

/-- Equality of LR items as the Python namedtuple compares them: the
triple structurally and the followed-by sets by content. -/
def itemBEq (a b : LRItem) : Bool :=
  decide (a.prodIndex = b.prodIndex) && decide (a.offset = b.offset) &&
    decide (a.lookahead = b.lookahead) && oeqb a.followedBy b.followedBy

/-- The step-in loop of State.closure (gen.py lines 992-1013): for one
item whose next symbol is the nonterminal nextNt, step into each of its
productions, skipping productions no longer present in the grammar
(the staleness guard of lines 1001-1002), and add each new item to the
closure and the worklist. -/
def closureStepInto (ctx : PgenContext) (item : LRItem) (nextNt : Nt)
    (cl : List LRItem) (todo : List LRItem) : List LRItem × List LRItem :=
  (lookupByNt ctx.prodsWithIndexesByNt nextNt).foldl (fun ct e =>
    if e.2 ≠ [] ∨ (lookupNt ctx.grammar nextNt).any (fun p => p.body = e.2) then
      let followers := specificFollow ctx.startSetCache item.prodIndex item.offset item.followedBy
      let newItem := makeLRItem ctx e.1 0 item.lookahead followers
      if ct.1.any (itemBEq newItem) then ct
      else (ct.1 ++ [newItem], ct.2 ++ [newItem])
    else ct) (cl, todo)

/-- The worklist loop of State.closure (gen.py lines 985-1014), with
fuel standing in for the loop that drains the queue. -/
def closureLoop (ctx : PgenContext) : Nat → List LRItem → List LRItem → List LRItem
  | 0, cl, _ => cl
  | _ + 1, cl, [] => cl
  | fuel + 1, cl, item :: todo =>
    let rhs := (ctx.prods.getD item.prodIndex dummyProd).rhs
    if item.offset < rhs.length then
      match rhs.getD item.offset (Sym.term "") with
      | .nt n =>
        let ct := closureStepInto ctx item n cl todo
        closureLoop ctx fuel ct.1 ct.2
      | _ => closureLoop ctx fuel cl todo
    else closureLoop ctx fuel cl todo

/-- State.closure (gen.py lines 969-1014): the closure starts from the
state's item set, which seeds both the closure and the worklist. -/
def closureItems (ctx : PgenContext) (stateItems : List LRItem) (fuel : Nat) : List LRItem :=
  closureLoop ctx fuel stateItems stateItems

/-! ### State.analyze: reduce collection and action-row encoding
(gen.py lines 1016-1103) -/

/-- The inner loop over item.followed_by of the reduce branch of
State.analyze (gen.py lines 1082-1086): install a reduce entry for
every followed-by terminal that is also in FOLLOW(nt); a terminal that
already has an entry is a reduce-reduce conflict. -/
def installItemReduces (ctx : PgenContext) (prodIndex : Nat) (nt : Nt) :
    List Tok → List (Tok × Nat) → Except String (List (Tok × Nat))
  | [], acc => Except.ok acc
  | t :: ts, acc =>
    if t ∈ ctx.follow nt then
      if acc.any (fun tp => tp.1 = t) then Except.error "reduce-reduce conflict"
      else installItemReduces ctx prodIndex nt ts (acc ++ [(t, prodIndex)])
    else installItemReduces ctx prodIndex nt ts acc

/-- The reduce part of step 1 of State.analyze (gen.py lines
1075-1086): walk the closure items; an item at the end of its
production contributes reduce entries through installItemReduces; a
still-active lookahead restriction is an error.  The accumulator is
the reduce_prods mapping, empty at the start of the walk. -/
def collectReduces (ctx : PgenContext) :
    List LRItem → List (Tok × Nat) → Except String (List (Tok × Nat))
  | [], acc => Except.ok acc
  | item :: items, acc =>
    let prod := ctx.prods.getD item.prodIndex dummyProd
    if item.offset < prod.rhs.length then collectReduces ctx items acc
    else if item.lookahead.isSome then
      Except.error "invalid grammar: lookahead restriction still active at end of production"
    else
      match installItemReduces ctx item.prodIndex prod.nt item.followedBy acc with
      | Except.ok acc2 => collectReduces ctx items acc2
      | Except.error e => Except.error e

/-- An action-table entry: either the reserved ACCEPT sentinel or an
integer action code.  ACCEPT comes from pgen_runtime (not in the
provided source); modelled from the spec (section 6): a reserved value
distinct from any state id or reduce code. -/
inductive ActionEntry where
  | accept
  | val (n : Int)
deriving DecidableEq, Repr

/-- The reduce loop of step 2 of State.analyze (gen.py lines
1093-1099): install each reduce entry into the action row; a terminal
that already has an entry is a shift-reduce conflict; a reduce for an
init nonterminal encodes as ACCEPT, any other as -prod_index - 1. -/
def installReduces (prods : List Prod) :
    List (Tok × Nat) → List (Tok × ActionEntry) → Except String (List (Tok × ActionEntry))
  | [], row => Except.ok row
  | tp :: rest, row =>
    if row.any (fun ta => ta.1 = tp.1) then Except.error "shift-reduce conflict"
    else installReduces prods rest (row ++ [(tp.1,
      if (prods.getD tp.2 dummyProd).nt.isInit then ActionEntry.accept
      else ActionEntry.val (-(tp.2 : Int) - 1))])

/-- Step 2 of State.analyze (gen.py lines 1088-1103), assembled: the
shift entries first - each shifted terminal maps to the id of the
successor state built from its consolidated item set, with
getStateIndex abstracting the get_state_index callback - and then the
reduce entries installed by installReduces. -/
def encodeActionRow (prods : List Prod) (getStateIndex : List LRItem → Nat)
    (shiftItems : List (Tok × List LRItem)) (reduceProds : List (Tok × Nat)) :
    Except String (List (Tok × ActionEntry)) :=
  installReduces prods reduceProds (shiftItems.map (fun ts =>
    (ts.1, ActionEntry.val ((getStateIndex (consolidate ts.2) : Int)))))

/-! ### Derivation semantics

The reference notion of derivation used by the specification's FIRST
invariant (section 8, invariant 5).  A sequence of symbols matches a
terminal string within a following context: a terminal consumes itself;
a nonterminal consumes a substring matched by one of its production
bodies; a LookaheadRule consumes nothing but constrains the next token
of the remaining input (the token after the current string when the
rest of the sequence derives the empty string - the spec's lookahead
restriction is a guard on the immediately upcoming token). -/

/-- Whether a lookahead restriction admits the given upcoming token
(Option.none is end of input, which a negative restriction admits). -/
def lookaheadOk (rule : LookaheadRule) : Option String → Prop
  | Option.some t => if rule.positive then t ∈ rule.set else t ∉ rule.set
  | Option.none => rule.positive = false

/-- SeqMatches g seq w k: the symbol sequence seq derives the terminal
string w, where k is the terminal string that follows w in the overall
input (used only to evaluate lookahead restrictions). -/
inductive SeqMatches (g : Grammar) : List Sym → List String → List String → Prop where
  | nil (k : List String) : SeqMatches g [] [] k
  | term (t : String) (rest : List Sym) (w k : List String) :
      SeqMatches g rest w k → SeqMatches g (.term t :: rest) (t :: w) k
  | nt (n : Nt) (p : Production) (rest : List Sym) (w₁ w₂ k : List String) :
      p ∈ lookupNt g n →
      SeqMatches g p.body w₁ (w₂ ++ k) →
      SeqMatches g rest w₂ k →
      SeqMatches g (.nt n :: rest) (w₁ ++ w₂) k
  | la (rule : LookaheadRule) (rest : List Sym) (w k : List String) :
      SeqMatches g rest w k →
      lookaheadOk rule (w ++ k).head? →
      SeqMatches g (.lookahead rule :: rest) w k

/-- A nonterminal derives a terminal string iff one of its production
bodies matches it with nothing following. -/
def Derives (g : Grammar) (n : Nt) (w : List String) : Prop :=
  ∃ p ∈ lookupNt g n, SeqMatches g p.body w []

/-! ### Specification devices -/

/-- The union of the followed-by sets of all items carrying a given
merge-key triple (a specification-side device used to state the
consolidation property of State.__init__). -/
def keyUnion (items : List LRItem) (k : Nat × Nat × Option LookaheadRule) : List Tok :=
  (items.filter (fun it => decide (itemKey it = k))).flatMap LRItem.followedBy

/-- The followed-by list stored under a key in the consolidation
accumulator of State.__init__, or the empty list when the key is
absent (a specification-side device). -/
def assocFB (acc : List ((Nat × Nat × Option LookaheadRule) × List Tok))
    (k : Nat × Nat × Option LookaheadRule) : List Tok :=
  match acc.find? (fun kv => kv.1 = k) with
  | Option.some kv => kv.2
  | Option.none => []

/-! ### Concrete instances

A small grammar fed through the lowering pipeline, used to examine the
start-set computation and the suffix cache on a pipeline-produced
grammar.  Source form (the shape the generator receives after stage D,
including the implicit init production of the goal):

  goal: S.   S -> (nothing) | x A.   A -> S [lookahead in set c] c.
-/

/-- The positive lookahead restriction requiring the next token c. -/
def laC : LookaheadRule :=
  LookaheadRule.mk ["c"] true

/-- The source grammar described above. -/
def gC1src : Grammar :=
  Grammar.mk
    [(Nt.init "S", [Production.mk (Nt.init "S") [Sym.nt (Nt.base "S")] RExpr.accept]),
     (Nt.base "S", [Production.mk (Nt.base "S") [] RExpr.noneE,
                    Production.mk (Nt.base "S") [Sym.term "x", Sym.nt (Nt.base "A")] RExpr.noneE]),
     (Nt.base "A", [Production.mk (Nt.base "A")
        [Sym.nt (Nt.base "S"), Sym.lookahead laC, Sym.term "c"] RExpr.noneE])]
    ["S"]

/-- Stages G step 1 and F applied to the source grammar (the order the
generator uses: epsilon-free step 1, then optional expansion). -/
def gC1exp : Grammar × List Prod × List (Nt × List (Nat × List Sym)) :=
  expandAllOptionalElements (makeEpsilonFreeStep1 gC1src 10)

/-- The flat production list of the example. -/
def prodsC1 : List Prod :=
  gC1exp.2.1

/-- The grammar produced by the lowering pipeline (stage G step 2 after
stage F), on which start_sets runs. -/
def gC1 : Grammar :=
  makeEpsilonFreeStep2 gC1exp.1

/-- The start sets computed by start_sets on the pipeline output. -/
def startC1 : List (Nt × List Tok) :=
  startSets gC1 10

/-- The negative lookahead restriction forbidding the next token x. -/
def laX : LookaheadRule :=
  LookaheadRule.mk ["x"] false

/-- A grammar whose nonterminal A has a production in which a
LookaheadRule is followed only by the nullable nonterminal B:

  goal: S.   S -> A.   A -> [lookahead not in set x] B.   B -> (nothing) | y.
-/
def gC2 : Grammar :=
  Grammar.mk
    [(Nt.init "S", [Production.mk (Nt.init "S") [Sym.nt (Nt.base "S")] RExpr.accept]),
     (Nt.base "S", [Production.mk (Nt.base "S") [Sym.nt (Nt.base "A")] RExpr.noneE]),
     (Nt.base "A", [Production.mk (Nt.base "A")
        [Sym.lookahead laX, Sym.nt (Nt.base "B")] RExpr.noneE]),
     (Nt.base "B", [Production.mk (Nt.base "B") [] RExpr.noneE,
                    Production.mk (Nt.base "B") [Sym.term "y"] RExpr.noneE])]
    ["S"]

/-- A two-production context used to exercise the state-analysis
definitions on concrete inputs: the init production InitNt(S) -> S and
the production S -> a. -/
def prodsW : List Prod :=
  [Prod.mk (Nt.init "S") 0 [Sym.nt (Nt.base "S")] [] RExpr.accept,
   Prod.mk (Nt.base "S") 0 [Sym.term "a"] [] (RExpr.int 0)]

/-- The grammar of the two-production context. -/
def gW : Grammar :=
  Grammar.mk
    [(Nt.init "S", [Production.mk (Nt.init "S") [Sym.nt (Nt.base "S")] RExpr.accept]),
     (Nt.base "S", [Production.mk (Nt.base "S") [Sym.term "a"] (RExpr.int 0)])]
    ["S"]

/-- The per-nonterminal production index of the two-production
context. -/
def byNtW : List (Nt × List (Nat × List Sym)) :=
  [(Nt.init "S", [(0, [Sym.nt (Nt.base "S")])]),
   (Nt.base "S", [(1, [Sym.term "a"])])]

/-- The follow map of the two-production context. -/
def followW : Nt → List Tok :=
  fun n =>
    if n = Nt.init "S" then [Tok.endm]
    else if n = Nt.base "S" then [Tok.endm]
    else []

/-- The assembled PgenContext of the two-production context. -/
def ctxW : PgenContext :=
  PgenContext.mk gW prodsW byNtW (makeStartSetCache gW prodsW (startSets gW 10)) followW

/-- A state of the two-production context whose single item has its
cursor at the end of the production S -> a. -/
def sW : List LRItem :=
  [LRItem.mk 1 1 Option.none [Tok.endm]]

/-- A concrete shift map for exercising the action-row encoder. -/
def shiftsW : List (Tok × List LRItem) :=
  [(Tok.t "a", [LRItem.mk 1 1 Option.none [Tok.endm]])]

/-- A concrete reduce map for exercising the action-row encoder. -/
def reducesW : List (Tok × Nat) :=
  [(Tok.endm, 1)]

/-- A one-item state used to exercise State.update. -/
def updSelfW : List LRItem :=
  [LRItem.mk 0 0 Option.none [Tok.t "a"]]

/-- A second one-item state with the same merge key but a larger
followed-by set. -/
def updNewW : List LRItem :=
  [LRItem.mk 0 0 Option.none [Tok.t "b"]]

/-! ## General lemmas about the ordered-set operations -/

theorem mem_oinsert {α : Type} [DecidableEq α] (l : List α) (x y : α) :
    y ∈ oinsert l x ↔ y ∈ l ∨ y = x := by
  unfold oinsert
  by_cases h : x ∈ l
  · rw [if_pos h]
    constructor
    · exact Or.inl
    · rintro (hy | rfl)
      · exact hy
      · exact h
  · rw [if_neg h]
    simp [List.mem_append]

theorem mem_ounion {α : Type} [DecidableEq α] (l₁ l₂ : List α) (y : α) :
    y ∈ ounion l₁ l₂ ↔ y ∈ l₁ ∨ y ∈ l₂ := by
  unfold ounion
  induction l₂ generalizing l₁ with
  | nil => simp
  | cons a as ih =>
    rw [List.foldl_cons, ih (oinsert l₁ a), mem_oinsert, List.mem_cons]
    tauto

theorem osdiff_eq_nil_iff {α : Type} [DecidableEq α] (l₁ l₂ : List α) :
    osdiff l₁ l₂ = [] ↔ ∀ x ∈ l₁, x ∈ l₂ := by
  unfold osdiff
  rw [List.filter_eq_nil_iff]
  simp

theorem oeqb_iff {α : Type} [DecidableEq α] (l₁ l₂ : List α) :
    oeqb l₁ l₂ = true ↔ (∀ x, x ∈ l₁ ↔ x ∈ l₂) := by
  unfold oeqb
  rw [Bool.and_eq_true, List.all_eq_true, List.all_eq_true]
  constructor
  · rintro ⟨h1, h2⟩ x
    exact ⟨fun hx => by simpa using h1 x hx, fun hx => by simpa using h2 x hx⟩
  · intro h
    exact ⟨fun x hx => by simpa using (h x).mp hx, fun x hx => by simpa using (h x).mpr hx⟩

/-! ## C9: empty productions are dropped except at goals -/

/-- C9: make_epsilon_free_step_2 keeps a production of a nonterminal
iff its body is nonempty or the nonterminal is a goal; in particular
no empty body survives except on goal nonterminals and every kept
production is unchanged. -/
theorem epsilon_free_step_2_spec (g : Grammar) (n : Nt) (p : Production) :
    p ∈ lookupNt (makeEpsilonFreeStep2 g) n ↔
      p ∈ lookupNt g n ∧ (p.body ≠ [] ∨ n ∈ goalNts g) := by
  unfold makeEpsilonFreeStep2 Grammar.withNonterminals lookupNt
  rw [List.find?_map]
  have hpred : ((fun kv : Nt × List Production => decide (kv.1 = n)) ∘
      (fun kv : Nt × List Production =>
        (kv.1, kv.2.filter (fun p => decide (0 < p.body.length) || decide (kv.1 ∈ goalNts g))))) =
      (fun kv : Nt × List Production => decide (kv.1 = n)) := rfl
  rw [hpred]
  cases h : g.nonterminals.find? (fun kv => decide (kv.1 = n)) with
  | none => simp
  | some kv =>
    have hk : kv.1 = n := by simpa using List.find?_some h
    simp only [Option.map_some']
    rw [List.mem_filter]
    subst hk
    simp [List.length_pos]

/-! ## C3: the action rewrite of optional expansion -/

theorem adjustReduceExprList_eq_map (body : List Sym) (removals : List Nat) (args : List RExpr) :
    adjustReduceExprList body removals args = args.map (adjustReduceExpr body removals) := by
  induction args with
  | nil => rfl
  | cons e es ih => rw [adjustReduceExprList, List.map_cons, ih]

/-- C3: adjust_reduce_expr maps an integer whose slot was removed to
None; an integer for a kept optional slot to Some of the reindexed
integer; an integer for a kept non-optional slot to the plain
reindexed integer, where reindexing subtracts the number of removals
below the index; and it maps None, Some, CallMethod and accept
homomorphically. -/
theorem adjust_reduce_expr_spec (body : List Sym) (removals : List Nat) :
    (∀ i, i < body.length →
      ((i ∈ removals → adjustReduceExpr body removals (RExpr.int i) = RExpr.noneE) ∧
       (i ∉ removals → (body.getD i (Sym.term "")).isOptionalSym = true →
          adjustReduceExpr body removals (RExpr.int i) =
            RExpr.someE (RExpr.int (i - countRemovalsBelow removals i))) ∧
       (i ∉ removals → (body.getD i (Sym.term "")).isOptionalSym = false →
          adjustReduceExpr body removals (RExpr.int i) =
            RExpr.int (i - countRemovalsBelow removals i)))) ∧
    adjustReduceExpr body removals RExpr.noneE = RExpr.noneE ∧
    (∀ e, adjustReduceExpr body removals (RExpr.someE e) =
       RExpr.someE (adjustReduceExpr body removals e)) ∧
    (∀ m args, adjustReduceExpr body removals (RExpr.call m args) =
       RExpr.call m (args.map (adjustReduceExpr body removals))) ∧
    adjustReduceExpr body removals RExpr.accept = RExpr.accept := by
  refine ⟨?_, ?_, ?_, ?_, ?_⟩
  · intro i _
    refine ⟨fun h1 => ?_, fun h1 h2 => ?_, fun h1 h2 => ?_⟩
    · simp [adjustReduceExpr, h1]
    · rw [List.getD_eq_getElem?_getD] at h2
      simp [adjustReduceExpr, h1, h2]
    · rw [List.getD_eq_getElem?_getD] at h2
      simp [adjustReduceExpr, h1, h2]
  · simp [adjustReduceExpr]
  · intro e; simp [adjustReduceExpr]
  · intro m args
    rw [adjustReduceExpr, adjustReduceExprList_eq_map]
  · simp [adjustReduceExpr]

/-- Witness for C3 on a concrete production body with one removed and
one kept optional slot. -/
theorem adjust_reduce_expr_spec_witness :
    1 < [Sym.optional (Sym.term "a"), Sym.optional (Sym.term "b")].length ∧
    adjustReduceExpr [Sym.optional (Sym.term "a"), Sym.optional (Sym.term "b")] [0]
        (RExpr.int 1) = RExpr.someE (RExpr.int 0) := by
  refine ⟨by decide, ?_⟩
  have h := (adjust_reduce_expr_spec [Sym.optional (Sym.term "a"), Sym.optional (Sym.term "b")]
    [0]).1 1 (by decide)
  have := h.2.1 (by decide) (by decide)
  simpa [countRemovalsBelow] using this

/-! ## C5: State.update merge semantics -/

/-- C5: for two states with equal merge keys, State.update returns
False exactly when every new followed-by set is contained in the
existing one, in which case the items are unchanged; otherwise it
returns True and unions the followed-by sets item-wise; merging never
removes a terminal from any followed-by set. -/
theorem state_update_spec (self new : List LRItem)
    (_hkeys : oeqb (self.map itemKey) (new.map itemKey) = true) :
    ((stateUpdate self new).1 = false ↔
      ∀ it ∈ self, ∀ x ∈ lookupFollowedBy new (itemKey it), x ∈ it.followedBy) ∧
    ((stateUpdate self new).1 = false → (stateUpdate self new).2 = self) ∧
    ((stateUpdate self new).1 = true →
      (stateUpdate self new).2 = self.map (fun it =>
        { it with followedBy := ounion it.followedBy (lookupFollowedBy new (itemKey it)) })) ∧
    (∀ it ∈ self, ∃ it' ∈ (stateUpdate self new).2,
      itemKey it' = itemKey it ∧ ∀ x ∈ it.followedBy, x ∈ it'.followedBy) := by
  clear _hkeys
  unfold stateUpdate
  by_cases h : self.all (fun it => decide (osdiff (lookupFollowedBy new (itemKey it)) it.followedBy = []))
  · rw [if_pos h]
    rw [List.all_eq_true] at h
    refine ⟨?_, fun _ => rfl, fun hfalse => by simp at hfalse, ?_⟩
    · constructor
      · intro _ it hit x hx
        have hd := h it hit
        rw [decide_eq_true_eq, osdiff_eq_nil_iff] at hd
        exact hd x hx
      · intro _; rfl
    · intro it hit
      exact ⟨it, hit, rfl, fun x hx => hx⟩
  · rw [if_neg h]
    refine ⟨?_, fun hf => by simp at hf, fun _ => rfl, ?_⟩
    · constructor
      · intro hfalse; simp at hfalse
      · intro hsub
        exfalso
        apply h
        rw [List.all_eq_true]
        intro it hit
        rw [decide_eq_true_eq, osdiff_eq_nil_iff]
        exact hsub it hit
    · intro it hit
      refine ⟨{ it with followedBy := ounion it.followedBy (lookupFollowedBy new (itemKey it)) },
        List.mem_map_of_mem _ hit, rfl, ?_⟩
      intro x hx
      exact (mem_ounion _ _ _).mpr (Or.inl hx)

/-- Witness for C5 on two concrete one-item states with equal merge
keys, where the new state enlarges the followed-by set. -/
theorem state_update_spec_witness :
    oeqb (updSelfW.map itemKey) (updNewW.map itemKey) = true ∧
    ∃ it' ∈ (stateUpdate updSelfW updNewW).2,
      itemKey it' = itemKey (LRItem.mk 0 0 Option.none [Tok.t "a"]) ∧
      ∀ x ∈ (LRItem.mk 0 0 Option.none [Tok.t "a"]).followedBy, x ∈ it'.followedBy := by
  refine ⟨by decide, ?_⟩
  exact (state_update_spec updSelfW updNewW (by decide)).2.2.2
    (LRItem.mk 0 0 Option.none [Tok.t "a"]) (by decide)

/-! ## C7: action-row encoding -/

theorem install_reduces_entries (prods : List Prod) (rp : List (Tok × Nat))
    (acc row : List (Tok × ActionEntry))
    (hok : installReduces prods rp acc = Except.ok row) :
    ∀ ta ∈ row, ta ∈ acc ∨ ∃ pi, (ta.1, pi) ∈ rp ∧
      ta.2 = (if (prods.getD pi dummyProd).nt.isInit then ActionEntry.accept
              else ActionEntry.val (-(pi : Int) - 1)) := by
  induction rp generalizing acc with
  | nil =>
    simp only [installReduces] at hok
    cases hok
    exact fun ta hta => Or.inl hta
  | cons tp rest ih =>
    simp only [installReduces] at hok
    by_cases hc : acc.any (fun ta => ta.1 = tp.1)
    · rw [if_pos hc] at hok
      exact absurd hok (by simp)
    · rw [if_neg hc] at hok
      intro ta hta
      rcases ih _ hok ta hta with hmem | ⟨pi, hpi, henc⟩
      · rcases List.mem_append.mp hmem with hacc | hnew
        · exact Or.inl hacc
        · rcases List.mem_singleton.mp hnew with rfl
          exact Or.inr ⟨tp.2, List.mem_cons_self _ _, rfl⟩
      · exact Or.inr ⟨pi, List.mem_cons_of_mem _ hpi, henc⟩

/-- C7: in an action row produced without a conflict, every entry is
either the nonnegative id of the successor state of a shift, or - for
a reduce - the ACCEPT sentinel when the reduced production's
nonterminal is an InitNt and the negative integer -prod_index - 1
otherwise. -/
theorem action_row_encoding (prods : List Prod) (getStateIndex : List LRItem → Nat)
    (shiftItems : List (Tok × List LRItem)) (reduceProds : List (Tok × Nat))
    (row : List (Tok × ActionEntry))
    (hok : encodeActionRow prods getStateIndex shiftItems reduceProds = Except.ok row) :
    ∀ ta ∈ row,
      (∃ its, (ta.1, its) ∈ shiftItems ∧
         ta.2 = ActionEntry.val ((getStateIndex (consolidate its) : Int)) ∧
         0 ≤ ((getStateIndex (consolidate its) : Int))) ∨
      (∃ pi, (ta.1, pi) ∈ reduceProds ∧
         ((prods.getD pi dummyProd).nt.isInit = true → ta.2 = ActionEntry.accept) ∧
         ((prods.getD pi dummyProd).nt.isInit = false →
            ta.2 = ActionEntry.val (-(pi : Int) - 1) ∧ (-(pi : Int) - 1) < 0)) := by
  intro ta hta
  rcases install_reduces_entries prods reduceProds _ row hok ta hta with hmem | ⟨pi, hpi, henc⟩
  · rcases List.mem_map.mp hmem with ⟨ts, hts, hpair⟩
    left
    refine ⟨ts.2, ?_, ?_, ?_⟩
    · have h1 : ta.1 = ts.1 := by rw [← hpair]
      rw [h1]
      exact hts
    · rw [← hpair]
    · exact Int.natCast_nonneg _
  · right
    refine ⟨pi, hpi, ?_, ?_⟩
    · intro hinit
      rw [henc, if_pos hinit]
    · intro hninit
      rw [henc, if_neg (by rw [hninit]; exact Bool.false_ne_true)]
      exact ⟨rfl, by omega⟩

/-- Witness for C7 on a concrete shift map, reduce map and state-id
assignment. -/
theorem action_row_encoding_witness :
    (∃ its, ((Tok.endm : Tok), its) ∈ shiftsW ∧
       (ActionEntry.val (-2) : ActionEntry) =
         ActionEntry.val (((fun _ => 7) (consolidate its) : Nat) : Int) ∧
       0 ≤ ((((fun _ => 7) (consolidate its) : Nat)) : Int)) ∨
    (∃ pi, ((Tok.endm : Tok), pi) ∈ reducesW ∧
       ((prodsW.getD pi dummyProd).nt.isInit = true →
          (ActionEntry.val (-2) : ActionEntry) = ActionEntry.accept) ∧
       ((prodsW.getD pi dummyProd).nt.isInit = false →
          (ActionEntry.val (-2) : ActionEntry) = ActionEntry.val (-(pi : Int) - 1) ∧
            (-(pi : Int) - 1) < 0)) := by
  have h := action_row_encoding prodsW (fun _ => 7) shiftsW reducesW
    [(Tok.t "a", ActionEntry.val 7), (Tok.endm, ActionEntry.val (-2))] (by rfl)
    (Tok.endm, ActionEntry.val (-2)) (by decide)
  exact h

/-! ## C6: soundness of the installed reduce entries -/

theorem install_item_reduces_entries (ctx : PgenContext) (prodIndex : Nat) (nt : Nt)
    (ts : List Tok) (acc row : List (Tok × Nat))
    (hok : installItemReduces ctx prodIndex nt ts acc = Except.ok row) :
    ∀ tp ∈ row, tp ∈ acc ∨ (tp.1 ∈ ts ∧ tp.1 ∈ ctx.follow nt ∧ tp.2 = prodIndex) := by
  induction ts generalizing acc with
  | nil =>
    simp only [installItemReduces] at hok
    cases hok
    exact fun tp htp => Or.inl htp
  | cons t rest ih =>
    simp only [installItemReduces] at hok
    by_cases hf : t ∈ ctx.follow nt
    · rw [if_pos hf] at hok
      by_cases hc : acc.any (fun tp => tp.1 = t)
      · rw [if_pos hc] at hok
        exact absurd hok (by simp)
      · rw [if_neg hc] at hok
        intro tp htp
        rcases ih _ hok tp htp with hmem | ⟨hts, hfol, hpi⟩
        · rcases List.mem_append.mp hmem with hacc | hnew
          · exact Or.inl hacc
          · rcases List.mem_singleton.mp hnew with rfl
            exact Or.inr ⟨List.mem_cons_self _ _, hf, rfl⟩
        · exact Or.inr ⟨List.mem_cons_of_mem _ hts, hfol, hpi⟩
    · rw [if_neg hf] at hok
      intro tp htp
      rcases ih _ hok tp htp with hmem | ⟨hts, hfol, hpi⟩
      · exact Or.inl hmem
      · exact Or.inr ⟨List.mem_cons_of_mem _ hts, hfol, hpi⟩

theorem collect_reduces_entries (ctx : PgenContext) (items : List LRItem)
    (acc row : List (Tok × Nat))
    (hok : collectReduces ctx items acc = Except.ok row) :
    ∀ tp ∈ row, tp ∈ acc ∨ ∃ item ∈ items,
      item.prodIndex = tp.2 ∧
      ¬(item.offset < (ctx.prods.getD item.prodIndex dummyProd).rhs.length) ∧
      tp.1 ∈ item.followedBy ∧
      tp.1 ∈ ctx.follow ((ctx.prods.getD item.prodIndex dummyProd).nt) := by
  induction items generalizing acc with
  | nil =>
    simp only [collectReduces] at hok
    cases hok
    exact fun tp htp => Or.inl htp
  | cons item rest ih =>
    simp only [collectReduces] at hok
    by_cases hoff : item.offset < (ctx.prods.getD item.prodIndex dummyProd).rhs.length
    · rw [if_pos hoff] at hok
      intro tp htp
      rcases ih _ hok tp htp with hmem | ⟨j, hj, hrest⟩
      · exact Or.inl hmem
      · exact Or.inr ⟨j, List.mem_cons_of_mem _ hj, hrest⟩
    · rw [if_neg hoff] at hok
      by_cases hla : item.lookahead.isSome
      · rw [if_pos hla] at hok
        exact absurd hok (by simp)
      · rw [if_neg hla] at hok
        cases hinst : installItemReduces ctx item.prodIndex
            ((ctx.prods.getD item.prodIndex dummyProd).nt) item.followedBy acc with
        | error e => rw [hinst] at hok; exact absurd hok (by simp)
        | ok acc2 =>
          rw [hinst] at hok
          intro tp htp
          rcases ih _ hok tp htp with hmem2 | ⟨j, hj, hrest⟩
          · rcases install_item_reduces_entries ctx item.prodIndex _ _ _ _ hinst tp hmem2 with
              hacc | ⟨hfb, hfol, hpi⟩
            · exact Or.inl hacc
            · exact Or.inr ⟨item, List.mem_cons_self _ _, hpi.symm, hoff, hfb, hfol⟩
          · exact Or.inr ⟨j, List.mem_cons_of_mem _ hj, hrest⟩

/-- C6: every reduce entry (t, p) installed while analyzing a state
has t in FOLLOW of the reduced production's nonterminal, and t in the
followed-by set of a reduce item (offset at the end of the rhs) of the
state's closure. -/
theorem reduce_entries_sound (ctx : PgenContext) (s : List LRItem) (fuel : Nat)
    (entries : List (Tok × Nat))
    (hwf : ∀ item ∈ closureItems ctx s fuel,
      item.offset ≤ (ctx.prods.getD item.prodIndex dummyProd).rhs.length)
    (hok : collectReduces ctx (closureItems ctx s fuel) [] = Except.ok entries) :
    ∀ tp ∈ entries,
      tp.1 ∈ ctx.follow ((ctx.prods.getD tp.2 dummyProd).nt) ∧
      ∃ item ∈ closureItems ctx s fuel,
        item.prodIndex = tp.2 ∧
        item.offset = (ctx.prods.getD item.prodIndex dummyProd).rhs.length ∧
        tp.1 ∈ item.followedBy := by
  intro tp htp
  rcases collect_reduces_entries ctx _ [] entries hok tp htp with hmem | ⟨item, hitem, hpi, hoff, hfb, hfol⟩
  · exact absurd hmem (List.not_mem_nil _)
  · refine ⟨?_, item, hitem, hpi, ?_, hfb⟩
    · rw [← hpi]; exact hfol
    · exact Nat.le_antisymm (hwf item hitem) (Nat.le_of_not_lt hoff)

/-- Witness for C6 on the two-production context, in the state whose
item has consumed the body of the production S to a. -/
theorem reduce_entries_sound_witness :
    (Tok.endm : Tok) ∈ ctxW.follow ((ctxW.prods.getD 1 dummyProd).nt) :=
  ((reduce_entries_sound ctxW sW 5 [(Tok.endm, 1)] (by decide) rfl)
    (Tok.endm, 1) (by decide)).1

/-! ## C10: consolidation in State.__init__ -/

theorem mem_keyUnion (items : List LRItem) (k : Nat × Nat × Option LookaheadRule) (x : Tok) :
    x ∈ keyUnion items k ↔ ∃ it ∈ items, itemKey it = k ∧ x ∈ it.followedBy := by
  unfold keyUnion
  rw [List.mem_flatMap]
  constructor
  · rintro ⟨it, hit, hx⟩
    rw [List.mem_filter] at hit
    exact ⟨it, hit.1, by simpa using hit.2, hx⟩
  · rintro ⟨it, hit, hk, hx⟩
    exact ⟨it, List.mem_filter.mpr ⟨hit, by simpa using hk⟩, hx⟩

theorem mem_keyUnion_cons (it : LRItem) (rest : List LRItem)
    (k : Nat × Nat × Option LookaheadRule) (x : Tok) :
    x ∈ keyUnion (it :: rest) k ↔
      (itemKey it = k ∧ x ∈ it.followedBy) ∨ x ∈ keyUnion rest k := by
  rw [mem_keyUnion, mem_keyUnion]
  constructor
  · rintro ⟨j, hj, hk, hx⟩
    rcases List.mem_cons.mp hj with rfl | hj'
    · exact Or.inl ⟨hk, hx⟩
    · exact Or.inr ⟨j, hj', hk, hx⟩
  · rintro (⟨hk, hx⟩ | ⟨j, hj, hk, hx⟩)
    · exact ⟨it, List.mem_cons_self _ _, hk, hx⟩
    · exact ⟨j, List.mem_cons_of_mem _ hj, hk, hx⟩

theorem keys_map_update (acc : List ((Nat × Nat × Option LookaheadRule) × List Tok))
    (k : Nat × Nat × Option LookaheadRule) (fb : List Tok) :
    (acc.map (fun kv => if kv.1 = k then (kv.1, ounion kv.2 fb) else kv)).map
        (fun kv => kv.1) = acc.map (fun kv => kv.1) := by
  rw [List.map_map]
  apply List.map_congr_left
  intro kv _
  by_cases hkv : kv.1 = k <;> simp [hkv]

theorem keys_addFollowedBy (acc : List ((Nat × Nat × Option LookaheadRule) × List Tok))
    (k fb) (k' : Nat × Nat × Option LookaheadRule) :
    k' ∈ (addFollowedBy acc k fb).map (fun kv => kv.1) ↔
      k' ∈ acc.map (fun kv => kv.1) ∨ k' = k := by
  unfold addFollowedBy
  by_cases h : acc.any (fun kv => decide (kv.1 = k))
  · rw [if_pos h, keys_map_update]
    constructor
    · exact Or.inl
    · rintro (hm | rfl)
      · exact hm
      · rw [List.any_eq_true] at h
        rcases h with ⟨kv, hkv, hk⟩
        rw [decide_eq_true_eq] at hk
        exact List.mem_map.mpr ⟨kv, hkv, hk⟩
  · rw [if_neg h]
    simp [List.mem_append]

theorem nodup_addFollowedBy (acc : List ((Nat × Nat × Option LookaheadRule) × List Tok))
    (k : Nat × Nat × Option LookaheadRule) (fb : List Tok)
    (h : (acc.map (fun kv => kv.1)).Nodup) :
    ((addFollowedBy acc k fb).map (fun kv => kv.1)).Nodup := by
  unfold addFollowedBy
  by_cases hc : acc.any (fun kv => decide (kv.1 = k))
  · rw [if_pos hc, keys_map_update]
    exact h
  · rw [if_neg hc, List.map_append]
    rw [List.nodup_append]
    refine ⟨h, List.nodup_singleton _, ?_⟩
    intro a ha hb
    rcases List.mem_map.mp ha with ⟨kv, hkv, rfl⟩
    rw [List.map_cons, List.map_nil, List.mem_singleton] at hb
    rw [List.any_eq_true] at hc
    exact hc ⟨kv, hkv, by simpa using hb⟩

theorem assocFB_nil (k : Nat × Nat × Option LookaheadRule) : assocFB [] k = [] := rfl

theorem assocFB_of_mem_nodup (acc : List ((Nat × Nat × Option LookaheadRule) × List Tok))
    (h : (acc.map (fun kv => kv.1)).Nodup)
    (kv) (hkv : kv ∈ acc) : assocFB acc kv.1 = kv.2 := by
  induction acc with
  | nil => cases hkv
  | cons a rest ih =>
    rw [List.map_cons, List.nodup_cons] at h
    rcases List.mem_cons.mp hkv with rfl | hkv'
    · unfold assocFB
      rw [List.find?_cons_of_pos _ (by simp)]
    · have hne : ¬(a.1 = kv.1) := by
        intro he
        exact h.1 (he ▸ List.mem_map.mpr ⟨kv, hkv', rfl⟩)
      unfold assocFB
      rw [List.find?_cons_of_neg _ (by simpa using hne)]
      exact ih h.2 hkv'

theorem find?_map_update_same (acc : List ((Nat × Nat × Option LookaheadRule) × List Tok))
    (k : Nat × Nat × Option LookaheadRule) (fb : List Tok) :
    (acc.map (fun kv => if kv.1 = k then (kv.1, ounion kv.2 fb) else kv)).find?
        (fun kv => decide (kv.1 = k)) =
      (acc.find? (fun kv => decide (kv.1 = k))).map (fun kv => (kv.1, ounion kv.2 fb)) := by
  induction acc with
  | nil => rfl
  | cons b bs ihb =>
    rw [List.map_cons]
    by_cases hb : b.1 = k
    · rw [if_pos hb]
      rw [List.find?_cons_of_pos _ (by simpa using hb), List.find?_cons_of_pos _ (by simpa using hb)]
      rfl
    · rw [if_neg hb]
      rw [List.find?_cons_of_neg _ (by simpa using hb), List.find?_cons_of_neg _ (by simpa using hb)]
      exact ihb

theorem find?_map_update_other (acc : List ((Nat × Nat × Option LookaheadRule) × List Tok))
    (k k' : Nat × Nat × Option LookaheadRule) (fb : List Tok) (hne : ¬(k = k')) :
    (acc.map (fun kv => if kv.1 = k then (kv.1, ounion kv.2 fb) else kv)).find?
        (fun kv => decide (kv.1 = k')) = acc.find? (fun kv => decide (kv.1 = k')) := by
  induction acc with
  | nil => rfl
  | cons b bs ihb =>
    rw [List.map_cons]
    by_cases hb : b.1 = k
    · rw [if_pos hb]
      rw [List.find?_cons_of_neg _ (by simp [hb, hne]), List.find?_cons_of_neg _ (by simp [hb, hne])]
      exact ihb
    · rw [if_neg hb]
      by_cases hb' : b.1 = k'
      · rw [List.find?_cons_of_pos _ (by simpa using hb'), List.find?_cons_of_pos _ (by simpa using hb')]
      · rw [List.find?_cons_of_neg _ (by simpa using hb'), List.find?_cons_of_neg _ (by simpa using hb')]
        exact ihb

theorem assocFB_addFollowedBy_same (acc : List ((Nat × Nat × Option LookaheadRule) × List Tok))
    (k : Nat × Nat × Option LookaheadRule) (fb : List Tok) (x : Tok) :
    x ∈ assocFB (addFollowedBy acc k fb) k ↔ x ∈ assocFB acc k ∨ x ∈ fb := by
  unfold addFollowedBy
  by_cases hany : acc.any (fun kv => decide (kv.1 = k))
  · rw [if_pos hany]
    unfold assocFB
    rw [find?_map_update_same]
    cases hf : acc.find? (fun kv => decide (kv.1 = k)) with
    | some kv =>
      simp only [Option.map_some']
      exact mem_ounion _ _ _
    | none =>
      exfalso
      rw [List.any_eq_true] at hany
      rcases hany with ⟨kv, hkv, hk⟩
      exact (List.find?_eq_none.mp hf kv hkv) hk
  · rw [if_neg hany]
    unfold assocFB
    rw [List.find?_append]
    have hf : acc.find? (fun kv => decide (kv.1 = k)) = Option.none := by
      rw [List.find?_eq_none]
      intro kv hkv hk
      exact hany (List.any_eq_true.mpr ⟨kv, hkv, hk⟩)
    rw [hf]
    rw [List.find?_cons_of_pos _ (by simp)]
    simp

theorem assocFB_addFollowedBy_other (acc : List ((Nat × Nat × Option LookaheadRule) × List Tok))
    (k : Nat × Nat × Option LookaheadRule) (fb : List Tok)
    (k' : Nat × Nat × Option LookaheadRule) (hne : k' ≠ k) :
    assocFB (addFollowedBy acc k fb) k' = assocFB acc k' := by
  have hne' : ¬(k = k') := fun h => hne h.symm
  unfold addFollowedBy
  by_cases hany : acc.any (fun kv => decide (kv.1 = k))
  · rw [if_pos hany]
    unfold assocFB
    rw [find?_map_update_other acc k k' fb hne']
  · rw [if_neg hany]
    unfold assocFB
    rw [List.find?_append]
    rw [List.find?_cons_of_neg _ (by simpa using hne'), List.find?_nil]
    cases hf : acc.find? (fun kv => decide (kv.1 = k')) with
    | some kv => rfl
    | none => rfl

theorem consolidate_fold_char (items : List LRItem) :
    ∀ acc, ((acc.map (fun kv => kv.1)).Nodup) →
      (((items.foldl (fun a it => addFollowedBy a (itemKey it) it.followedBy) acc).map
          (fun kv => kv.1)).Nodup) ∧
      (∀ k, k ∈ (items.foldl (fun a it => addFollowedBy a (itemKey it) it.followedBy) acc).map
          (fun kv => kv.1) ↔
        k ∈ acc.map (fun kv => kv.1) ∨ k ∈ items.map itemKey) ∧
      (∀ kv ∈ items.foldl (fun a it => addFollowedBy a (itemKey it) it.followedBy) acc,
        ∀ x : Tok, x ∈ kv.2 ↔ x ∈ assocFB acc kv.1 ∨ x ∈ keyUnion items kv.1) := by
  induction items with
  | nil =>
    intro acc hacc
    refine ⟨hacc, by simp, ?_⟩
    intro kv hkv x
    rw [assocFB_of_mem_nodup acc hacc kv hkv]
    simp [keyUnion]
  | cons it rest ih =>
    intro acc hacc
    have hacc' := nodup_addFollowedBy acc (itemKey it) it.followedBy hacc
    obtain ⟨ha, hb, hc⟩ := ih (addFollowedBy acc (itemKey it) it.followedBy) hacc'
    refine ⟨by simpa using ha, ?_, ?_⟩
    · intro k
      rw [List.foldl_cons, hb k, keys_addFollowedBy, List.map_cons, List.mem_cons]
      tauto
    · intro kv hkv x
      rw [List.foldl_cons] at hkv
      rw [hc kv hkv x, mem_keyUnion_cons]
      by_cases hk : kv.1 = itemKey it
      · rw [hk, assocFB_addFollowedBy_same]
        constructor
        · rintro ((h1 | h2) | h3)
          · exact Or.inl h1
          · exact Or.inr (Or.inl ⟨rfl, h2⟩)
          · exact Or.inr (Or.inr h3)
        · rintro (h1 | (⟨_, h2⟩ | h3))
          · exact Or.inl (Or.inl h1)
          · exact Or.inl (Or.inr h2)
          · exact Or.inr h3
      · rw [assocFB_addFollowedBy_other _ _ _ _ hk]
        constructor
        · rintro (h1 | h3)
          · exact Or.inl h1
          · exact Or.inr (Or.inr h3)
        · rintro (h1 | (⟨hke, _⟩ | h3))
          · exact Or.inl h1
          · exact absurd hke.symm hk
          · exact Or.inr h3

theorem itemBEq_iff (a b : LRItem) :
    itemBEq a b = true ↔ (itemKey a = itemKey b ∧ oeqb a.followedBy b.followedBy = true) := by
  unfold itemBEq itemKey
  rw [Bool.and_eq_true, Bool.and_eq_true, Bool.and_eq_true]
  rw [decide_eq_true_eq, decide_eq_true_eq, decide_eq_true_eq, Prod.ext_iff, Prod.ext_iff]
  tauto

theorem consolidate_keys (items : List LRItem) :
    (consolidate items).map itemKey =
      (items.foldl (fun a it => addFollowedBy a (itemKey it) it.followedBy) []).map
        (fun kv => kv.1) := by
  unfold consolidate
  rw [List.map_map]
  rfl

theorem consolidate_char (items : List LRItem) :
    ((consolidate items).map itemKey).Nodup ∧
    (∀ k, k ∈ (consolidate items).map itemKey ↔ k ∈ items.map itemKey) ∧
    (∀ it ∈ consolidate items, ∀ x : Tok,
       x ∈ it.followedBy ↔ x ∈ keyUnion items (itemKey it)) := by
  obtain ⟨ha, hb, hc⟩ := consolidate_fold_char items [] (by simp)
  refine ⟨?_, ?_, ?_⟩
  · rw [consolidate_keys]; exact ha
  · intro k
    rw [consolidate_keys, hb k]
    simp
  · intro it hit x
    unfold consolidate at hit
    rcases List.mem_map.mp hit with ⟨kv, hkv, rfl⟩
    have hx := hc kv hkv x
    rw [assocFB_nil] at hx
    simp only [List.not_mem_nil, false_or] at hx
    exact hx

theorem consolidate_subset_dir (l₁ l₂ : List LRItem)
    (hkeys : ∀ k, k ∈ l₁.map itemKey ↔ k ∈ l₂.map itemKey)
    (hun : ∀ k ∈ l₁.map itemKey, ∀ x : Tok, x ∈ keyUnion l₁ k ↔ x ∈ keyUnion l₂ k)
    (j : LRItem) (hj : ∃ i ∈ consolidate l₁, itemBEq i j = true) :
    ∃ i ∈ consolidate l₂, itemBEq i j = true := by
  obtain ⟨_, c1b, c1c⟩ := consolidate_char l₁
  obtain ⟨_, c2b, c2c⟩ := consolidate_char l₂
  obtain ⟨i, hi, hbe⟩ := hj
  rw [itemBEq_iff] at hbe
  have hk1 : itemKey i ∈ l₁.map itemKey := (c1b _).mp (List.mem_map.mpr ⟨i, hi, rfl⟩)
  have hk2 : itemKey i ∈ (consolidate l₂).map itemKey := (c2b _).mpr ((hkeys _).mp hk1)
  rcases List.mem_map.mp hk2 with ⟨i', hi', hki'⟩
  refine ⟨i', hi', ?_⟩
  rw [itemBEq_iff]
  refine ⟨hki'.trans hbe.1, ?_⟩
  rw [oeqb_iff]
  intro x
  rw [c2c i' hi' x, hki', ← hun (itemKey i) hk1 x, ← c1c i hi x]
  exact (oeqb_iff _ _).mp hbe.2 x

/-- C10: State construction consolidates its items: the constructed
item set has pairwise distinct merge-key triples; it has exactly the
triples of the input items; each consolidated item's followed-by set is
the union of the followed-by sets of the input items with that triple;
and two item collections with equal triple sets and equal per-triple
unions consolidate to equal item sets (under the namedtuple equality
the source uses, with followed-by compared as a set). -/
theorem state_init_consolidates (items : List LRItem) :
    ((consolidate items).map itemKey).Nodup ∧
    (∀ k, k ∈ (consolidate items).map itemKey ↔ k ∈ items.map itemKey) ∧
    (∀ it ∈ consolidate items, ∀ x : Tok,
       x ∈ it.followedBy ↔ x ∈ keyUnion items (itemKey it)) ∧
    (∀ l₂ : List LRItem,
       oeqb (items.map itemKey) (l₂.map itemKey) = true →
       (∀ k ∈ items.map itemKey, oeqb (keyUnion items k) (keyUnion l₂ k) = true) →
       ∀ j : LRItem,
         (∃ i ∈ consolidate items, itemBEq i j = true) ↔
         (∃ i ∈ consolidate l₂, itemBEq i j = true)) := by
  obtain ⟨ca, cb, cc⟩ := consolidate_char items
  refine ⟨ca, cb, cc, ?_⟩
  intro l₂ hkeysb hunb j
  have hkeys : ∀ k, k ∈ items.map itemKey ↔ k ∈ l₂.map itemKey :=
    (oeqb_iff _ _).mp hkeysb
  have hun : ∀ k ∈ items.map itemKey, ∀ x : Tok, x ∈ keyUnion items k ↔ x ∈ keyUnion l₂ k :=
    fun k hk x => (oeqb_iff _ _).mp (hunb k hk) x
  constructor
  · exact consolidate_subset_dir items l₂ hkeys hun j
  · apply consolidate_subset_dir l₂ items (fun k => (hkeys k).symm)
    intro k hk x
    exact ((hun k ((hkeys k).mpr hk) x)).symm

/-- Witness for C10 part 4 on two concrete collections: the same two
items in opposite orders with split followed-by sets. -/
theorem state_init_consolidates_witness :
    (∃ i ∈ consolidate [LRItem.mk 3 0 Option.none [Tok.t "a"],
                        LRItem.mk 3 0 Option.none [Tok.t "b"]],
       itemBEq i (LRItem.mk 3 0 Option.none [Tok.t "a", Tok.t "b"]) = true) ↔
    (∃ i ∈ consolidate [LRItem.mk 3 0 Option.none [Tok.t "b", Tok.t "a"]],
       itemBEq i (LRItem.mk 3 0 Option.none [Tok.t "a", Tok.t "b"]) = true) :=
  (state_init_consolidates [LRItem.mk 3 0 Option.none [Tok.t "a"],
      LRItem.mk 3 0 Option.none [Tok.t "b"]]).2.2.2
    [LRItem.mk 3 0 Option.none [Tok.t "b", Tok.t "a"]] (by decide) (by decide)
    (LRItem.mk 3 0 Option.none [Tok.t "a", Tok.t "b"])

/-! ## C4: invariants of optional expansion -/

theorem findFirstOptionalAux_bounds (l : List Sym) (idx i : Nat)
    (h : findFirstOptionalAux l idx = Option.some i) :
    idx ≤ i ∧ i < idx + l.length ∧ (l.getD (i - idx) (Sym.term "")).isOptionalSym = true := by
  induction l generalizing idx with
  | nil => simp [findFirstOptionalAux] at h
  | cons e rest ih =>
    rw [findFirstOptionalAux] at h
    by_cases he : e.isOptionalSym
    · rw [if_pos he] at h
      cases h
      refine ⟨Nat.le_refl _, by simp, ?_⟩
      simpa using he
    · rw [if_neg he] at h
      obtain ⟨h1, h2, h3⟩ := ih (idx + 1) h
      refine ⟨by omega, by simp; omega, ?_⟩
      have hx : i - idx = (i - (idx + 1)) + 1 := by omega
      rw [hx]
      simpa using h3

theorem findFirstOptional_spec (rhs : List Sym) (s i : Nat)
    (h : findFirstOptional rhs s = Option.some i) :
    s ≤ i ∧ i < rhs.length ∧ (rhs.getD i (Sym.term "")).isOptionalSym = true := by
  unfold findFirstOptional at h
  obtain ⟨h1, h2, h3⟩ := findFirstOptionalAux_bounds _ _ _ h
  rw [List.length_drop] at h2
  refine ⟨h1, by omega, ?_⟩
  rw [List.getD_eq_getElem?_getD] at h3 ⊢
  rw [List.getElem?_drop] at h3
  have hx : s + (i - s) = i := by omega
  rw [hx] at h3
  exact h3

theorem expand_optional_invariant (fuel : Nat) :
    ∀ (rhs : List Sym) (s : Nat),
      ∀ er ∈ expandOptionalSymbolsInRhs fuel rhs s,
        rhs.length - s = er.1.length + er.2.length ∧
        List.Pairwise (· < ·) er.2 ∧
        ∀ r ∈ er.2, s ≤ r ∧ r < rhs.length ∧ (rhs.getD r (Sym.term "")).isOptionalSym = true := by
  induction fuel with
  | zero =>
    intro rhs s er her
    simp [expandOptionalSymbolsInRhs] at her
  | succ fuel ih =>
    intro rhs s er her
    rw [expandOptionalSymbolsInRhs] at her
    cases hf : findFirstOptional rhs s with
    | none =>
      rw [hf] at her
      rcases List.mem_singleton.mp her with rfl
      exact ⟨by simp, List.Pairwise.nil, by simp⟩
    | some i =>
      rw [hf] at her
      obtain ⟨hsi, hilen, hopt⟩ := findFirstOptional_spec rhs s i hf
      rw [List.mem_flatMap] at her
      rcases her with ⟨er', her', hmem⟩
      obtain ⟨hlen', hpw', hbound'⟩ := ih rhs (i + 1) er' her'
      have hslice : ((rhs.take i).drop s).length = i - s := by
        rw [List.length_drop, List.length_take]
        omega
      rcases List.mem_cons.mp hmem with rfl | hmem'
      · -- the expansion without rhs[i]
        refine ⟨?_, ?_, ?_⟩
        · show rhs.length - s =
            ((rhs.take i).drop s ++ er'.1).length + (i :: er'.2).length
          rw [List.length_append, List.length_cons, hslice]
          omega
        · refine List.Pairwise.cons ?_ hpw'
          intro r hr
          exact Nat.lt_of_lt_of_le (Nat.lt_succ_self i) (hbound' r hr).1
        · intro r hr
          rcases List.mem_cons.mp hr with rfl | hr'
          · exact ⟨hsi, hilen, hopt⟩
          · obtain ⟨hb1, hb2, hb3⟩ := hbound' r hr'
            exact ⟨by omega, hb2, hb3⟩
      · rcases List.mem_singleton.mp hmem' with rfl
        -- the expansion with rhs[i].inner
        refine ⟨?_, hpw', ?_⟩
        · show rhs.length - s =
            ((rhs.take i).drop s ++ [(rhs.getD i (Sym.term "")).innerSym] ++ er'.1).length +
              er'.2.length
          rw [List.length_append, List.length_append, List.length_cons, List.length_nil,
            hslice]
          omega
        · intro r hr
          obtain ⟨hb1, hb2, hb3⟩ := hbound' r hr
          exact ⟨by omega, hb2, hb3⟩

/-- C4: every flat Prod emitted by optional expansion satisfies: the
original production body's length equals the length of the flat rhs
plus the number of removals; the removals list is strictly ascending;
and every removal index points at an Optional element of the original
body. -/
theorem flat_prod_invariant (g : Grammar) :
    ∀ p ∈ (expandAllOptionalElements g).2.1,
      ∃ plist, (p.nt, plist) ∈ g.nonterminals ∧
      ∃ sp, plist[p.index]? = Option.some sp ∧
        sp.body.length = p.rhs.length + p.removals.length ∧
        List.Pairwise (· < ·) p.removals ∧
        ∀ r ∈ p.removals, r < sp.body.length ∧
          (sp.body.getD r (Sym.term "")).isOptionalSym = true := by
  intro p hp
  simp only [expandAllOptionalElements] at hp
  rw [List.mem_flatMap] at hp
  rcases hp with ⟨kv, hkv, hp⟩
  rw [List.mem_flatMap] at hp
  rcases hp with ⟨ip, hip, hp⟩
  rw [List.mem_map] at hp
  rcases hp with ⟨er, her, rfl⟩
  obtain ⟨idx, sp⟩ := ip
  refine ⟨kv.2, hkv, sp, ?_, ?_, ?_, ?_⟩
  · exact List.mk_mem_enum_iff_getElem?.mp hip
  · obtain ⟨hlen, _, _⟩ := expand_optional_invariant (sp.body.length + 1) sp.body 0 er her
    simpa using hlen
  · exact (expand_optional_invariant (sp.body.length + 1) sp.body 0 er her).2.1
  · intro r hr
    obtain ⟨_, hb2, hb3⟩ :=
      (expand_optional_invariant (sp.body.length + 1) sp.body 0 er her).2.2 r hr
    exact ⟨hb2, hb3⟩

/-- A one-production grammar with a single optional slot, for the C4
witness. -/
def gOpt : Grammar :=
  Grammar.mk [(Nt.base "S",
    [Production.mk (Nt.base "S") [Sym.optional (Sym.term "a")] (RExpr.int 0)])] ["S"]

/-- Witness for C4 on the flat production of gOpt that drops the
optional slot. -/
theorem flat_prod_invariant_witness :
    ∃ plist, ((Prod.mk (Nt.base "S") 0 [] [0] RExpr.noneE).nt, plist) ∈ gOpt.nonterminals ∧
    ∃ sp, plist[(Prod.mk (Nt.base "S") 0 [] [0] RExpr.noneE).index]? = Option.some sp ∧
      sp.body.length = (Prod.mk (Nt.base "S") 0 [] [0] RExpr.noneE).rhs.length +
        (Prod.mk (Nt.base "S") 0 [] [0] RExpr.noneE).removals.length ∧
      List.Pairwise (· < ·) (Prod.mk (Nt.base "S") 0 [] [0] RExpr.noneE).removals ∧
      ∀ r ∈ (Prod.mk (Nt.base "S") 0 [] [0] RExpr.noneE).removals, r < sp.body.length ∧
        (sp.body.getD r (Sym.term "")).isOptionalSym = true :=
  flat_prod_invariant gOpt (Prod.mk (Nt.base "S") 0 [] [0] RExpr.noneE) (List.Mem.head _)

/-! ## C1: the start sets miss a derivable first terminal -/

/-- C1 evidence: gC1 is produced by the lowering pipeline from gC1src
(which passes the cycle and lookahead validators); the start-set
iteration has reached its fixed point at startC1; there A's start set
is exactly the terminal c, yet A derives the nonempty string x c c,
which begins with the terminal x.  So membership in the computed FIRST
set is not equivalent to the existence of a terminal-leading
derivation. -/
theorem start_sets_miss_derivable_terminal :
    checkCycleFree gC1src 10 = true ∧
    checkLookaheadRules gC1src 10 = true ∧
    (lookupNt gC1 (Nt.base "A")).map Production.body =
      [[Sym.lookahead laC, Sym.term "c"],
       [Sym.nt (Nt.base "S"), Sym.lookahead laC, Sym.term "c"]] ∧
    startPass gC1 gC1.nonterminals startC1 true = (startC1, true) ∧
    lookupStart startC1 (Nt.base "A") = [Tok.t "c"] ∧
    (Tok.t "x") ∉ lookupStart startC1 (Nt.base "A") ∧
    Derives gC1 (Nt.base "A") ["x", "c", "c"] := by
  refine ⟨by decide, by decide, by decide, by decide, by decide, by decide, ?_⟩
  have hA2 : Production.mk (Nt.base "A")
      [Sym.nt (Nt.base "S"), Sym.lookahead laC, Sym.term "c"] RExpr.noneE ∈
      lookupNt gC1 (Nt.base "A") := List.Mem.tail _ (List.Mem.head _)
  have hA1 : Production.mk (Nt.base "A")
      [Sym.lookahead laC, Sym.term "c"] RExpr.noneE ∈
      lookupNt gC1 (Nt.base "A") := List.Mem.head _
  have hS2 : Production.mk (Nt.base "S")
      [Sym.term "x", Sym.nt (Nt.base "A")] RExpr.noneE ∈
      lookupNt gC1 (Nt.base "S") := List.Mem.tail _ (List.Mem.head _)
  have hok : lookaheadOk laC (Option.some "c") := by
    simp [lookaheadOk, laC]
  -- The inner A (production A -> [lookahead c] c) derives "c" with "c" following.
  have m1 : SeqMatches gC1 [Sym.term "c"] ["c"] ["c"] :=
    SeqMatches.term "c" [] [] ["c"] (SeqMatches.nil ["c"])
  have m2 : SeqMatches gC1 [Sym.lookahead laC, Sym.term "c"] ["c"] ["c"] :=
    SeqMatches.la laC [Sym.term "c"] ["c"] ["c"] m1 hok
  have m3 : SeqMatches gC1 [Sym.nt (Nt.base "A")] ["c"] ["c"] :=
    SeqMatches.nt (Nt.base "A")
      (Production.mk (Nt.base "A") [Sym.lookahead laC, Sym.term "c"] RExpr.noneE)
      [] ["c"] [] ["c"] hA1 m2 (SeqMatches.nil ["c"])
  -- The S production S -> x A derives "x c" with "c" following.
  have m4 : SeqMatches gC1 [Sym.term "x", Sym.nt (Nt.base "A")] ["x", "c"] ["c"] :=
    SeqMatches.term "x" [Sym.nt (Nt.base "A")] ["c"] ["c"] m3
  -- The tail of the outer A production after S: the lookahead and the final c.
  have m5 : SeqMatches gC1 [Sym.term "c"] ["c"] [] :=
    SeqMatches.term "c" [] [] [] (SeqMatches.nil [])
  have m6 : SeqMatches gC1 [Sym.lookahead laC, Sym.term "c"] ["c"] [] :=
    SeqMatches.la laC [Sym.term "c"] ["c"] [] m5 hok
  refine ⟨Production.mk (Nt.base "A")
    [Sym.nt (Nt.base "S"), Sym.lookahead laC, Sym.term "c"] RExpr.noneE, hA2, ?_⟩
  exact SeqMatches.nt (Nt.base "S")
    (Production.mk (Nt.base "S") [Sym.term "x", Sym.nt (Nt.base "A")] RExpr.noneE)
    [Sym.lookahead laC, Sym.term "c"] ["x", "c"] ["c"] [] hS2 m4 m6

/-! ## C2: the trailing-lookahead validator misses nullable followers -/

/-- C2 evidence: check_lookahead_rules accepts gC2 even though the only
production of A, whose sole optional expansion is itself, has a
LookaheadRule followed only by the nullable nonterminal B - the case
the claim requires to fail. -/
theorem check_lookahead_rules_gap :
    checkLookaheadRules gC2 10 = true ∧
    Nt.base "B" ∈ emptyNtSet gC2 10 ∧
    (lookupNt gC2 (Nt.base "A")).map Production.body =
      [[Sym.lookahead laX, Sym.nt (Nt.base "B")]] ∧
    expandOptionalsRhs [Sym.lookahead laX, Sym.nt (Nt.base "B")] =
      [([Sym.lookahead laX, Sym.nt (Nt.base "B")], [])] := by
  exact ⟨by decide, by decide, by decide, by decide⟩

/-! ## C8: the suffix cache disagrees with seq_start -/

/-- C8 evidence: for the flat production A -> S [lookahead c] c of the
pipeline-produced grammar gC1 (index 5 in prodsC1), the eagerly built
cache row disagrees with the naive per-suffix computation at suffix 0:
the right-to-left construction keeps the terminal x contributed by the
nullable prefix S, while seq_start discards it on reaching the
lookahead rule.  (The assertions inside make_start_set_cache check
exactly this equality, so on this input the source fails its own
assertion.)  The row length invariant does hold. -/
theorem start_set_cache_mismatch :
    (prodsC1.getD 5 dummyProd).rhs =
      [Sym.nt (Nt.base "S"), Sym.lookahead laC, Sym.term "c"] ∧
    ((makeStartSetCache gC1 prodsC1 startC1).getD 5 []).getD 0 [] =
      [Tok.t "x", Tok.t "c"] ∧
    seqStart gC1 startC1 ((prodsC1.getD 5 dummyProd).rhs) = [Tok.t "c"] ∧
    oeqb (((makeStartSetCache gC1 prodsC1 startC1).getD 5 []).getD 0 [])
      (seqStart gC1 startC1 ((prodsC1.getD 5 dummyProd).rhs)) = false ∧
    ((makeStartSetCache gC1 prodsC1 startC1).getD 5 []).length =
      (prodsC1.getD 5 dummyProd).rhs.length + 1 := by
  exact ⟨by decide, by decide, by decide, by decide, by decide⟩

end Espg

